import Mathlib

/-!
Verification of the SIBILA ingestion/query pipeline (src/app.py).

Texts are modelled as `List Char` (Python `str`).  Python dynamic values that
can appear in metadata and index responses are modelled by `PyVal`.  Machine
floats never undergo arithmetic in the verified code paths (they are only
moved around or compared by runtime type), so float payloads are carried as
exact rationals.
-/

/-- Whitespace characters of CPython for ASCII text (`str.strip`, regex
class `\s`): space, tab, newline, carriage return, vertical tab, form feed. -/
def isSpace (c : Char) : Bool :=
  c == ' ' || c == '\t' || c == '\n' || c == '\r' || c == '\x0b' || c == '\x0c'

/-- Python `str.strip()`: drop whitespace from both ends. -/
def pyStrip (t : List Char) : List Char :=
  ((t.dropWhile isSpace).reverse.dropWhile isSpace).reverse

/-- Step 1 of `clean_text` in src/app.py: `t.replace("\x00", " ")` (the second
replace of `"\u0000"` targets the same character and is a no-op). -/
def replaceNul (t : List Char) : List Char :=
  t.map (fun c => if c == '\x00' then ' ' else c)

/-- Character class of the regex `[\r\t]+` in `clean_text`. -/
def isRT (c : Char) : Bool :=
  c == '\r' || c == '\t'

theorem length_dropWhile_le {α : Type} (p : α → Bool) (l : List α) :
    (l.dropWhile p).length ≤ l.length := by
  induction l with
  | nil => simp
  | cons a l ih =>
    by_cases h : p a
    · simp only [List.dropWhile_cons, h, if_true]
      exact Nat.le_succ_of_le ih
    · simp [List.dropWhile_cons, h]

/-- One-pass scanner for `re.sub(r"[\r\t]+", " ", t)`: the flag records
whether the previous character was a carriage return or tab, so each maximal
run of them contributes exactly one space. -/
def collapseRTAux : Bool → List Char → List Char
  | _, [] => []
  | prevRT, c :: cs =>
    if isRT c then (if prevRT then [] else [' ']) ++ collapseRTAux true cs
    else c :: collapseRTAux false cs

/-- Step 2 of `clean_text`: `re.sub(r"[\r\t]+", " ", t)` — each maximal run of
carriage returns and tabs becomes a single space. -/
def collapseRT (t : List Char) : List Char :=
  collapseRTAux false t

/-- Suffix of a character run strictly after its last newline. -/
def afterLastNl (r : List Char) : List Char :=
  (r.reverse.takeWhile (fun c => !(c == '\n'))).reverse

/-- Action of `re.sub(r"\s+\n", "\n", t)` on one maximal whitespace run: the
leftmost-longest match starts at the head of the run and, by greedy matching
with backtracking, ends at the last newline of the run, so a run containing a
newline is rewritten to a single newline followed by whatever trails the last
newline; a run without a newline never matches and stays unchanged. -/
def collapseRun (r : List Char) : List Char :=
  if r.contains '\n' then '\n' :: afterLastNl r else r

/-- One-pass scanner for `re.sub(r"\s+\n", "\n", t)`: `buf` accumulates the
current maximal whitespace run in reverse; when the run ends (at a non-space
character or the end of text) it is rewritten by `collapseRun`. -/
def collapseWsNlAux : List Char → List Char → List Char
  | buf, [] => collapseRun buf.reverse
  | buf, c :: cs =>
    if isSpace c then collapseWsNlAux (c :: buf) cs
    else collapseRun buf.reverse ++ c :: collapseWsNlAux [] cs

/-- Step 3 of `clean_text`: `re.sub(r"\s+\n", "\n", t)`, decomposed over the
maximal whitespace runs of the text. -/
def collapseWsNl (t : List Char) : List Char :=
  collapseWsNlAux [] t

/-- One-pass scanner for `re.sub(r"\n{3,}", "\n\n", t)`: `seen` counts the
newlines of the current run already scanned, and only the first two of a run
are emitted, so a run of three or more newlines becomes exactly two while
shorter runs pass through unchanged. -/
def collapseNl3Aux : Nat → List Char → List Char
  | _, [] => []
  | seen, c :: cs =>
    if c == '\n' then
      (if seen < 2 then ['\n'] else []) ++ collapseNl3Aux (seen + 1) cs
    else c :: collapseNl3Aux 0 cs

/-- Step 4 of `clean_text`: `re.sub(r"\n{3,}", "\n\n", t)` — a maximal run of
three or more newlines becomes exactly two. -/
def collapseNl3 (t : List Char) : List Char :=
  collapseNl3Aux 0 t

/-- Embedding of `clean_text` from src/app.py: NUL bytes to spaces, collapse
runs of carriage returns and tabs to one space, delete whitespace hanging
before a newline, collapse long newline runs, then strip both ends. -/
def clean_text (t : List Char) : List Char :=
  pyStrip (collapseNl3 (collapseWsNl (collapseRT (replaceNul t))))

/-- Loop of `chunk_text` from src/app.py with explicit fuel.  Each iteration
slices `t[start:end]` with `end = min (start + maxc) t.length`; if the slice
reaches the end of the text the loop stops, otherwise the cursor becomes
`max 0 (end - ov)` (which truncated `Nat` subtraction yields directly).  The
Python loop never terminates when `ov ≥ maxc` on a long enough text; running
out of fuel models that, returning `none`. -/
def chunkLoop (t : List Char) (maxc ov : Nat) : Nat → Nat → Option (List (List Char))
  | _, 0 => none
  | start, fuel + 1 =>
    if start < t.length then
      let piece := (t.drop start).take maxc
      if start + maxc < t.length then
        match chunkLoop t maxc ov (start + maxc - ov) fuel with
        | some rest => some (piece :: rest)
        | none => none
      else some [piece]
    else some []

/-- Embedding of `chunk_text` from src/app.py.  The function strips the text
first (so the empty and whitespace-only texts give the empty chunk list) and
then runs the slicing loop; `length + 1` fuel always suffices when
`ov < maxc` (theorem `chunkLoop_isSome`). -/
def chunk_text (t : List Char) (maxc ov : Nat) : Option (List (List Char)) :=
  chunkLoop (pyStrip t) maxc ov 0 ((pyStrip t).length + 1)

theorem chunkLoop_isSome (t : List Char) (maxc ov : Nat) (h : ov < maxc) :
    ∀ fuel start, t.length - start < fuel → (chunkLoop t maxc ov start fuel).isSome := by
  intro fuel
  induction fuel with
  | zero => intro start h0; omega
  | succ fuel ih =>
    intro start hlt
    rw [chunkLoop]
    by_cases hs : start < t.length
    · simp only [hs, if_true]
      by_cases he : start + maxc < t.length
      · simp only [he, if_true]
        have hrec := ih (start + maxc - ov) (by omega)
        cases hcl : chunkLoop t maxc ov (start + maxc - ov) fuel with
        | none => rw [hcl] at hrec; simp at hrec
        | some rest => simp
      · simp [he]
    · simp [hs]

theorem chunk_text_isSome (t : List Char) (maxc ov : Nat) (h : ov < maxc) :
    (chunk_text t maxc ov).isSome := by
  exact chunkLoop_isSome (pyStrip t) maxc ov h _ 0 (by omega)

/-- Concatenation of chunks after dropping the first `ov` characters of each:
the tail chunks contribute only their non-overlapping part. -/
def joinDrops (ov : Nat) (cs : List (List Char)) : List Char :=
  (cs.map (List.drop ov)).flatten

/-- Overlap-aware concatenation: the first chunk whole, later chunks with
their leading `ov` shared characters removed. -/
def joinOverlap (ov : Nat) : List (List Char) → List Char
  | [] => []
  | c :: rest => c ++ joinDrops ov rest

theorem chunkLoop_joinDrops (t : List Char) (maxc ov : Nat) (h : ov < maxc) :
    ∀ fuel start cs, chunkLoop t maxc ov start fuel = some cs →
      joinDrops ov cs = t.drop (start + ov) := by
  intro fuel
  induction fuel with
  | zero => intro start cs hcl; simp [chunkLoop] at hcl
  | succ fuel ih =>
    intro start cs hcl
    rw [chunkLoop] at hcl
    by_cases hs : start < t.length
    · simp only [hs, if_true] at hcl
      by_cases he : start + maxc < t.length
      · simp only [he, if_true] at hcl
        cases hrec : chunkLoop t maxc ov (start + maxc - ov) fuel with
        | none => rw [hrec] at hcl; simp at hcl
        | some rest =>
          rw [hrec] at hcl
          simp only [Option.some.injEq] at hcl
          subst hcl
          have hrest := ih _ _ hrec
          have harith : start + maxc - ov + ov = start + maxc := by omega
          rw [harith] at hrest
          simp only [joinDrops, List.map_cons, List.flatten_cons]
          rw [List.drop_take, List.drop_drop]
          show (t.drop (start + ov)).take (maxc - ov) ++ joinDrops ov rest = t.drop (start + ov)
          rw [hrest]
          have h2 : t.drop (start + maxc) = (t.drop (start + ov)).drop (maxc - ov) := by
            rw [List.drop_drop]; congr 1; omega
          rw [h2, List.take_append_drop]
      · simp only [he, if_false] at hcl
        simp only [Option.some.injEq] at hcl
        subst hcl
        simp only [joinDrops, List.map_cons, List.map_nil, List.flatten_cons, List.flatten_nil,
          List.append_nil]
        have hlen : (t.drop start).length ≤ maxc := by
          simp only [List.length_drop]; omega
        rw [List.take_of_length_le hlen, List.drop_drop]
    · simp only [hs, if_false] at hcl
      simp only [Option.some.injEq] at hcl
      subst hcl
      simp only [joinDrops, List.map_nil, List.flatten_nil]
      rw [eq_comm, List.drop_eq_nil_iff]
      omega

theorem chunkLoop_head (t : List Char) (maxc ov : Nat) :
    ∀ fuel start cs, chunkLoop t maxc ov start fuel = some cs →
      start < t.length → ∃ rest, cs = ((t.drop start).take maxc) :: rest := by
  intro fuel start cs hcl hs
  cases fuel with
  | zero => simp [chunkLoop] at hcl
  | succ fuel =>
    rw [chunkLoop] at hcl
    simp only [hs, if_true] at hcl
    by_cases he : start + maxc < t.length
    · simp only [he, if_true] at hcl
      cases hrec : chunkLoop t maxc ov (start + maxc - ov) fuel with
      | none => rw [hrec] at hcl; simp at hcl
      | some rest =>
        rw [hrec] at hcl
        simp only [Option.some.injEq] at hcl
        exact ⟨rest, hcl.symm⟩
    · simp only [he, if_false, Option.some.injEq] at hcl
      exact ⟨[], hcl.symm⟩

theorem chunkLoop_chain (t : List Char) (maxc ov : Nat) (h : ov < maxc) :
    ∀ fuel start cs, chunkLoop t maxc ov start fuel = some cs →
      List.Chain'
        (fun a b => a.drop (a.length - ov) = b.take ov ∧ ov ≤ a.length ∧ ov ≤ b.length)
        cs := by
  intro fuel
  induction fuel with
  | zero => intro start cs hcl; simp [chunkLoop] at hcl
  | succ fuel ih =>
    intro start cs hcl
    rw [chunkLoop] at hcl
    by_cases hs : start < t.length
    · simp only [hs, if_true] at hcl
      by_cases he : start + maxc < t.length
      · simp only [he, if_true] at hcl
        cases hrec : chunkLoop t maxc ov (start + maxc - ov) fuel with
        | none => rw [hrec] at hcl; simp at hcl
        | some rest =>
          rw [hrec] at hcl
          simp only [Option.some.injEq] at hcl
          subst hcl
          have hchain := ih _ _ hrec
          have hs' : start + maxc - ov < t.length := by omega
          obtain ⟨rest', hrest'⟩ := chunkLoop_head t maxc ov fuel _ _ hrec hs'
          subst hrest'
          refine List.Chain'.cons ?_ hchain
          have hlenp : ((t.drop start).take maxc).length = maxc := by
            simp only [List.length_take, List.length_drop]
            omega
          have hlenp' : ov ≤ ((t.drop (start + maxc - ov)).take maxc).length := by
            simp only [List.length_take, List.length_drop]
            omega
          refine ⟨?_, by omega, hlenp'⟩
          rw [hlenp, List.drop_take, List.drop_drop, List.take_take]
          have h1 : maxc - (maxc - ov) = ov := by omega
          have h2 : start + (maxc - ov) = start + maxc - ov := by omega
          have h3 : min ov maxc = ov := by omega
          rw [h1, h2, h3]
      · simp only [he, if_false, Option.some.injEq] at hcl
        subst hcl
        simp
    · simp only [hs, if_false, Option.some.injEq] at hcl
      subst hcl
      simp

theorem chunk_text_reconstructs (t : List Char) (maxc ov : Nat) (h : ov < maxc) :
    ∀ cs, chunk_text t maxc ov = some cs → joinOverlap ov cs = pyStrip t := by
  intro cs hcs
  rw [chunk_text, chunkLoop] at hcs
  by_cases hs : 0 < (pyStrip t).length
  · simp only [hs, if_true] at hcs
    by_cases he : 0 + maxc < (pyStrip t).length
    · simp only [he, if_true] at hcs
      cases hrec : chunkLoop (pyStrip t) maxc ov (0 + maxc - ov) ((pyStrip t).length) with
      | none => rw [hrec] at hcs; simp at hcs
      | some rest =>
        rw [hrec] at hcs
        simp only [Option.some.injEq] at hcs
        subst hcs
        have hrest := chunkLoop_joinDrops (pyStrip t) maxc ov h _ _ _ hrec
        have harith : 0 + maxc - ov + ov = maxc := by omega
        rw [harith] at hrest
        simp only [joinOverlap, List.drop_zero]
        rw [hrest, List.take_append_drop]
    · simp only [he, if_false, Option.some.injEq] at hcs
      subst hcs
      simp only [joinOverlap, joinDrops, List.map_nil, List.flatten_nil, List.append_nil,
        List.drop_zero]
      exact List.take_of_length_le (by omega)
  · simp only [hs, if_false, Option.some.injEq] at hcs
    subst hcs
    simp only [joinOverlap]
    have hz : (pyStrip t).length = 0 := by omega
    exact (List.length_eq_zero.mp hz).symm

/-- C1: for 0 ≤ overlap < max_chars, the chunks returned by chunk_text fully
cover the stripped input with no gaps — the first chunk followed by each later
chunk minus its first `overlap` characters concatenates back to exactly the
stripped text — and every pair of consecutive chunks shares exactly `overlap`
characters: the last `overlap` characters of one chunk equal the first
`overlap` characters of the next, both chunks being at least `overlap` long. -/
theorem chunk_text_coverage (t : List Char) (maxc ov : Nat) (h : ov < maxc) :
    ∃ cs, chunk_text t maxc ov = some cs ∧
      joinOverlap ov cs = pyStrip t ∧
      List.Chain'
        (fun a b => a.drop (a.length - ov) = b.take ov ∧ ov ≤ a.length ∧ ov ≤ b.length)
        cs := by
  obtain ⟨cs, hcs⟩ := Option.isSome_iff_exists.mp (chunk_text_isSome t maxc ov h)
  refine ⟨cs, hcs, chunk_text_reconstructs t maxc ov h cs hcs, ?_⟩
  rw [chunk_text] at hcs
  exact chunkLoop_chain (pyStrip t) maxc ov h _ _ _ hcs

theorem chunk_text_coverage_witness :
    1 < 3 ∧
    ∃ cs, chunk_text ("abcdefgh".toList) 3 1 = some cs ∧
      joinOverlap 1 cs = pyStrip ("abcdefgh".toList) ∧
      List.Chain'
        (fun a b => a.drop (a.length - 1) = b.take 1 ∧ 1 ≤ a.length ∧ 1 ≤ b.length)
        cs :=
  ⟨by norm_num, chunk_text_coverage ("abcdefgh".toList) 3 1 (by norm_num)⟩

theorem pyStrip_length_le (t : List Char) : (pyStrip t).length ≤ t.length := by
  rw [pyStrip, List.length_reverse]
  calc ((t.dropWhile isSpace).reverse.dropWhile isSpace).length
      ≤ (t.dropWhile isSpace).reverse.length := length_dropWhile_le _ _
    _ = (t.dropWhile isSpace).length := List.length_reverse _
    _ ≤ t.length := length_dropWhile_le _ _

/-- C8 (amended): a text no longer than max_chars chunks to exactly one chunk,
namely the stripped text, when the stripped text is nonempty, and to zero
chunks when it is empty.  (The single chunk is the output of Python str.strip,
not of the full normalizer clean_text: chunk_text only strips.) -/
theorem chunk_text_short (t : List Char) (maxc ov : Nat) (hlen : t.length ≤ maxc) :
    chunk_text t maxc ov = some (if pyStrip t = [] then [] else [pyStrip t]) := by
  have hple : (pyStrip t).length ≤ maxc := le_trans (pyStrip_length_le t) hlen
  by_cases hp : pyStrip t = []
  · simp only [hp, if_true]
    rw [chunk_text, hp]
    simp [chunkLoop]
  · simp only [hp, if_false]
    have hpos : 0 < (pyStrip t).length := List.length_pos.mpr hp
    rw [chunk_text, chunkLoop]
    have he : ¬ (0 + maxc < (pyStrip t).length) := by omega
    simp only [hpos, if_true, he, if_false, List.drop_zero, Option.some.injEq]
    rw [List.take_of_length_le hple]

theorem chunk_text_short_witness :
    ("  hi  ".toList).length ≤ 10 ∧
    chunk_text ("  hi  ".toList) 10 3
      = some (if pyStrip ("  hi  ".toList) = [] then [] else [pyStrip ("  hi  ".toList)]) :=
  ⟨by decide, chunk_text_short ("  hi  ".toList) 10 3 (by decide)⟩

/-- C8 counterexample: for t = "a\tb" (length 3 ≤ max_chars) the normalized
text clean_text t = "a b" is nonempty, yet chunk_text returns the chunk
"a\tb" (the merely stripped text), not the normalized text, so the claim that
the single chunk equals normalize(t) fails as stated. -/
theorem chunk_text_normalize_counterexample :
    ("a\tb".toList).length ≤ 1500 ∧
    clean_text ("a\tb".toList) ≠ [] ∧
    chunk_text ("a\tb".toList) 1500 150 ≠ some [clean_text ("a\tb".toList)] :=
  ⟨by decide, by decide, by decide⟩

theorem chunkLoop_length_le (t : List Char) (maxc ov : Nat) (h : ov < maxc) :
    ∀ fuel start cs, chunkLoop t maxc ov start fuel = some cs →
      cs.length ≤ t.length - start := by
  intro fuel
  induction fuel with
  | zero => intro start cs hcl; simp [chunkLoop] at hcl
  | succ fuel ih =>
    intro start cs hcl
    rw [chunkLoop] at hcl
    by_cases hs : start < t.length
    · simp only [hs, if_true] at hcl
      by_cases he : start + maxc < t.length
      · simp only [he, if_true] at hcl
        cases hrec : chunkLoop t maxc ov (start + maxc - ov) fuel with
        | none => rw [hrec] at hcl; simp at hcl
        | some rest =>
          rw [hrec] at hcl
          simp only [Option.some.injEq] at hcl
          subst hcl
          have := ih _ _ hrec
          simp only [List.length_cons]
          omega
      · simp only [he, if_false, Option.some.injEq] at hcl
        subst hcl
        simp only [List.length_cons, List.length_nil]
        omega
    · simp only [hs, if_false, Option.some.injEq] at hcl
      subst hcl
      simp

/-- C10: whenever 0 ≤ overlap < max_chars the chunking loop terminates — the
fuelled loop completes within stripped-length + 1 steps, each iteration
advancing the cursor by at least max_chars - overlap ≥ 1 — and returns a
finite list of at most length-of-stripped-text chunks.  The code never checks
this precondition, so the guarantee is only available under it (with
overlap ≥ max_chars the fuelled loop can exhaust its fuel, mirroring the
infinite loop of the Python code). -/
theorem chunk_text_terminates (t : List Char) (maxc ov : Nat) (h : ov < maxc) :
    ∃ cs, chunk_text t maxc ov = some cs ∧ cs.length ≤ (pyStrip t).length := by
  obtain ⟨cs, hcs⟩ := Option.isSome_iff_exists.mp (chunk_text_isSome t maxc ov h)
  refine ⟨cs, hcs, ?_⟩
  rw [chunk_text] at hcs
  have := chunkLoop_length_le (pyStrip t) maxc ov h _ _ _ hcs
  omega

theorem chunk_text_terminates_witness :
    2 < 5 ∧
    ∃ cs, chunk_text ("chunking terminates".toList) 5 2 = some cs ∧
      cs.length ≤ (pyStrip ("chunking terminates".toList)).length :=
  ⟨by norm_num, chunk_text_terminates ("chunking terminates".toList) 5 2 (by norm_num)⟩

/-- Universe of Python runtime values flowing through metadata and index
responses: primitive scalars, None, and the nested structures (lists and
dicts) that the sanitizer must drop.  Float payloads are exact rationals —
the pipeline never does float arithmetic, it only moves scores around or
branches on their runtime type. -/
inductive PyVal where
  | vstr (s : List Char)
  | vint (n : Int)
  | vfloat (q : Rat)
  | vbool (b : Bool)
  | vnone
  | vlist (xs : List PyVal)
  | vdict (kvs : List (List Char × PyVal))

/-- Python dict with string keys, as its ordered list of bindings (a real
Python dict never holds two bindings of the same key). -/
abbrev PyDict : Type := List (List Char × PyVal)

/-- Lookup in a Python dict: the value at the first matching key. -/
def dictGet : PyDict → List Char → Option PyVal
  | [], _ => none
  | (k', v) :: rest, k => if k' = k then some v else dictGet rest k

/-- Python dict assignment d[k] = v: overwrite the first binding of k keeping
its position, or append a new binding at the end. -/
def dictSet : PyDict → List Char → PyVal → PyDict
  | [], k, v => [(k, v)]
  | (k', v') :: rest, k, v =>
    if k' = k then (k, v) :: rest else (k', v') :: dictSet rest k v

/-- Runtime check isinstance(v, (str, int, float, bool)) from meta_to_dict. -/
def isPrimScalar : PyVal → Bool
  | .vstr _ => true
  | .vint _ => true
  | .vfloat _ => true
  | .vbool _ => true
  | _ => false

/-- Runtime check v is None. -/
def isNone : PyVal → Bool
  | .vnone => true
  | _ => false

/-- Typed metadata record JurisMeta of src/app.py (pydantic v1): three
optional string fields and a free-form extension dict. -/
structure JurisMeta where
  filename : Option (List Char)
  category : Option (List Char)
  case_id : Option (List Char)
  extra : PyDict

/-- Pydantic v1 .dict() of a JurisMeta: all four fields in declaration
order, None for absent optionals, the extension bag as a nested dict. -/
def JurisMeta.toRaw (j : JurisMeta) : PyDict :=
  [("filename".toList, match j.filename with | some s => .vstr s | none => .vnone),
   ("category".toList, match j.category with | some s => .vstr s | none => .vnone),
   ("case_id".toList, match j.case_id with | some s => .vstr s | none => .vnone),
   ("extra".toList, .vdict j.extra)]

/-- The meta argument of an ingestion item: absent, a typed record, or a
free-form dict (Optional[Union[JurisMeta, Dict]] in src/app.py). -/
inductive MetaInput where
  | mnone
  | mdict (d : PyDict)
  | mtyped (j : JurisMeta)

/-- Filtering loop of meta_to_dict: keep a binding when
isinstance(v, (str, int, float, bool)) or v is None holds and v is not None;
bindings with nested values fall through the outer test and are skipped. -/
def metaFilter : PyDict → PyDict
  | [] => []
  | (k, v) :: rest =>
    if isPrimScalar v || isNone v then
      if !(isNone v) then (k, v) :: metaFilter rest else metaFilter rest
    else metaFilter rest

/-- Embedding of meta_to_dict from src/app.py: normalize the meta input to a
raw dict (empty for None, a copy for a dict, .dict() for a JurisMeta), then
keep only primitive-scalar bindings. -/
def meta_to_dict (meta : MetaInput) : PyDict :=
  metaFilter (match meta with
    | .mnone => []
    | .mdict d => d
    | .mtyped j => j.toRaw)

/-- Embedding of make_id from src/app.py: the f-string doc_id ++ "__" ++ suffix. -/
def make_id (doc_id suffix : List Char) : List Char :=
  doc_id ++ "__".toList ++ suffix

/-- Decimal rendering of a chunk ordinal, as the f-string interpolates it. -/
def natStr (i : Nat) : List Char :=
  (Nat.repr i).toList

/-- Ingestion request item of src/app.py. -/
structure IngestItem where
  doc_id : List Char
  text : List Char
  meta : MetaInput

/-- One upsert call issued to the vector index. -/
structure UpsertCall where
  ids : List (List Char)
  documents : List (List Char)
  metadatas : List PyDict

/-- Chunks of one document as the ingest endpoint computes them: chunk_text
of clean_text at the default parameters max_chars = 1500, overlap = 150.
The defaults satisfy overlap < max_chars, so by chunkLoop_isSome the loop
always completes and the default of getD is never taken. -/
def chunksOf (text : List Char) : List (List Char) :=
  (chunk_text (clean_text text) 1500 150).getD []

/-- Ids the ingest loop appends for one item, i counting the enumerate
index: the i-th chunk gets make_id(doc_id, str(i)). -/
def idsFor (doc_id : List Char) : Nat → List (List Char) → List (List Char)
  | _, [] => []
  | i, _ :: rest => make_id doc_id (natStr i) :: idsFor doc_id (i + 1) rest

/-- Metadata rows the ingest loop appends for one item: the sanitized caller
metadata with doc_id and chunk_index written on top (in the update
literal's order), chunk_index being the enumerate index. -/
def metasFor (item : IngestItem) : Nat → List (List Char) → List PyDict
  | _, [] => []
  | i, _ :: rest =>
    dictSet (dictSet (meta_to_dict item.meta) ("doc_id".toList) (.vstr item.doc_id))
        ("chunk_index".toList) (.vint i)
      :: metasFor item (i + 1) rest

/-- Rows the ingest loop appends for one item: for the i-th chunk the id
make_id(doc_id, str(i)), the chunk text, and the stamped metadata. -/
def rowsFor (item : IngestItem) : List (List Char) × List (List Char) × List PyDict :=
  (idsFor item.doc_id 0 (chunksOf item.text),
   chunksOf item.text,
   metasFor item 0 (chunksOf item.text))

/-- Parallel accumulation of ids, documents and metadatas over the whole
batch, as the for-loop of the ingest endpoint extends its three lists. -/
def buildRows : List IngestItem → List (List Char) × List (List Char) × List PyDict
  | [] => ([], [], [])
  | item :: rest =>
    let r := rowsFor item
    let b := buildRows rest
    (r.1 ++ b.1, r.2.1 ++ b.2.1, r.2.2 ++ b.2.2)

/-- Error surfaced by the ingest endpoint: HTTPException(status, detail). -/
structure HTTPError where
  status : Nat
  detail : List Char

/-- Embedding of the ingest endpoint of src/app.py.  The first component is
the HTTP outcome — the empty-input client error HTTPException 400 or the
response counts (ingested_chunks, docs) — and the second the list of upsert
calls issued to the vector index: none on the error path (the exception is
raised before any index call), exactly one batched call on success. -/
def ingest (items : List IngestItem) : Except HTTPError (Nat × Nat) × List UpsertCall :=
  let rows := buildRows items
  if rows.1 = [] then
    (.error ⟨400, "No hay texto para ingerir.".toList⟩, [])
  else
    (.ok (rows.1.length, items.length), [⟨rows.1, rows.2.1, rows.2.2⟩])

/-- Concatenation of every document's chunks across a batch, in order. -/
def batchChunks (items : List IngestItem) : List (List Char) :=
  (items.map (fun it => chunksOf it.text)).flatten

/-- Query request of src/app.py (top_k defaults to 5 and is an arbitrary
Python int, so it is modelled as an integer). -/
structure QueryRequest where
  query : List Char
  top_k : Int
  filters : Option PyDict

/-- Call issued to the vector index by the query endpoint. -/
structure IndexQueryCall where
  query_texts : List (List Char)
  n_results : Int
  whereFilter : Option PyDict

/-- Embedding of the call construction of the query endpoint of src/app.py:
the filter is q.filters when truthy (present and nonempty — an absent or
empty dict is normalized to no filter), and n_results is
max(1, min(top_k, 20)). -/
def queryCall (q : QueryRequest) : IndexQueryCall :=
  { query_texts := [q.query]
    n_results := max 1 (min q.top_k 20)
    whereFilter := match q.filters with
      | none => none
      | some [] => none
      | some f => some f }

/-- Raw response of collection.query for a single query text.  Each field is
an optional outer array: none models the key being absent from the response
dict (looked up via .get with default [[]]). -/
structure IndexResponse where
  documents : Option (List (List (Option (List Char))))
  metadatas : Option (List (List PyVal))
  distances : Option (List (List PyVal))
  embeddings : Option (List (List PyVal))

/-- Python res.get(key, [[]])[0]: an absent key defaults to [[]] whose first
element is []; a present outer array yields its first row, and indexing an
empty outer array raises (modelled by none). -/
def getFirst {α : Type} (o : Option (List (List α))) : Option (List α) :=
  match o with
  | none => some []
  | some outer => outer.head?

/-- Runtime check isinstance(score, (int, float)) — a Python bool is an int,
so a boolean score passes too. -/
def isNumScore : PyVal → Bool
  | .vint _ => true
  | .vfloat _ => true
  | .vbool _ => true
  | _ => false

/-- Python float() on a value that passed isinstance((int, float)). -/
def toFloat : PyVal → Rat
  | .vint n => (n : Rat)
  | .vfloat q => q
  | .vbool b => if b then 1 else 0
  | _ => 0

/-- Python str() as the query endpoint applies it to the looked-up doc_id.
The pipeline only ever stores doc_id as a string and the default for a
missing key is the string "", so only the vstr case is exercised by the
theorems; the other scalar cases carry CPython's exact renderings, while the
float case and the recursive rendering of nested values are not modelled
bit-exactly (marked texts stand for them — no theorem depends on these). -/
def pyStr : PyVal → List Char
  | .vstr s => s
  | .vint n => (Int.repr n).toList
  | .vbool b => if b then "True".toList else "False".toList
  | .vnone => "None".toList
  | .vfloat _ => "unmodelled-float-repr".toList
  | .vlist _ => "unmodelled-list-repr".toList
  | .vdict _ => "unmodelled-dict-repr".toList

/-- Score array selection of the query endpoint:
res.get("distances", [[]])[0] or res.get("embeddings", [[]]).  When the
first row of distances is truthy (nonempty) it is the score array; otherwise
the fallback is the whole embeddings value — without a [0] index — so its
elements are rows, i.e. lists, never numeric. -/
def chosenScores (r : IndexResponse) : Option (List PyVal) :=
  match getFirst r.distances with
  | none => none
  | some [] => some ((r.embeddings.getD [[]]).map PyVal.vlist)
  | some d => some d

/-- Python zip over three parallel lists, truncating at the shortest. -/
def zip3 {α β γ : Type} : List α → List β → List γ → List (α × β × γ)
  | x :: xs, y :: ys, z :: zs => (x, y, z) :: zip3 xs ys zs
  | _, _, _ => []

/-- Result record assembled by the query endpoint (model QueryChunk of
src/app.py): doc_id read from metadata, text, coerced score, metadata. -/
structure QueryChunk where
  doc_id : List Char
  text : List Char
  score : Rat
  meta : PyDict

/-- Embedding of the result-assembly half of the query endpoint of
src/app.py: take the first rows of documents and metadatas, select the score
array, then zip the three positionally; a non-dict metadata entry becomes an
empty dict, doc_id is str(meta.get("doc_id", "")), a missing document text
becomes "", and a score is coerced with float() when its runtime type is
numeric and degrades to 0.0 otherwise. -/
def queryAssemble (r : IndexResponse) : Option (List QueryChunk) :=
  match getFirst r.documents with
  | none => none
  | some docs =>
    match getFirst r.metadatas with
    | none => none
    | some metas =>
      match chosenScores r with
      | none => none
      | some scores =>
        some ((zip3 docs metas scores).map (fun row =>
          let md : PyDict := match row.2.1 with
            | .vdict kvs => kvs
            | _ => []
          { doc_id := pyStr ((dictGet md ("doc_id".toList)).getD (.vstr []))
            text := row.1.getD []
            score := if isNumScore row.2.2 then toFloat row.2.2 else 0
            meta := md }))

theorem isRT_A : isRT 'A' = false := rfl

theorem isSpace_A : isSpace 'A' = false := rfl

theorem replaceNul_repA (n : Nat) :
    replaceNul (List.replicate n 'A') = List.replicate n 'A' := by
  rw [replaceNul, List.map_replicate]
  rfl

theorem collapseRTAux_repA : ∀ (n : Nat) (b : Bool),
    collapseRTAux b (List.replicate n 'A') = List.replicate n 'A' := by
  intro n
  induction n with
  | zero => intro b; rfl
  | succ n ih =>
    intro b
    rw [List.replicate_succ]
    simp [collapseRTAux, isRT_A, ih]

theorem collapseWsNlAux_repA : ∀ n : Nat,
    collapseWsNlAux [] (List.replicate n 'A') = List.replicate n 'A' := by
  intro n
  induction n with
  | zero => rfl
  | succ n ih =>
    rw [List.replicate_succ]
    simp [collapseWsNlAux, isSpace_A, ih, collapseRun]

theorem collapseNl3Aux_repA : ∀ n : Nat,
    collapseNl3Aux 0 (List.replicate n 'A') = List.replicate n 'A' := by
  intro n
  induction n with
  | zero => rfl
  | succ n ih =>
    rw [List.replicate_succ]
    simp only [collapseNl3Aux, show ('A' == '\n') = false from rfl, Bool.false_eq_true,
      if_false, ih]

theorem dropWhile_isSpace_repA (n : Nat) :
    List.dropWhile isSpace (List.replicate n 'A') = List.replicate n 'A' := by
  cases n with
  | zero => rfl
  | succ n =>
    rw [List.replicate_succ, List.dropWhile_cons, isSpace_A]
    simp

theorem pyStrip_repA (n : Nat) : pyStrip (List.replicate n 'A') = List.replicate n 'A' := by
  rw [pyStrip, dropWhile_isSpace_repA, List.reverse_replicate, dropWhile_isSpace_repA,
    List.reverse_replicate]

theorem clean_text_repA (n : Nat) :
    clean_text (List.replicate n 'A') = List.replicate n 'A' := by
  rw [clean_text, replaceNul_repA, collapseRT, collapseRTAux_repA, collapseWsNl,
    collapseWsNlAux_repA, collapseNl3, collapseNl3Aux_repA, pyStrip_repA]

theorem chunksOf_repA :
    chunksOf (List.replicate 2000 'A') = [List.replicate 1500 'A', List.replicate 650 'A'] := by
  have hstep : chunkLoop (List.replicate 2000 'A') 1500 150 1350 2000
      = some [List.replicate 650 'A'] := by
    show chunkLoop (List.replicate 2000 'A') 1500 150 1350 (1999 + 1)
        = some [List.replicate 650 'A']
    rw [chunkLoop]
    simp only [List.length_replicate]
    norm_num
  have h1 : (0 : Nat) < 2000 := by norm_num
  have h2 : (0 : Nat) + 1500 < 2000 := by norm_num
  rw [chunksOf, clean_text_repA, chunk_text, pyStrip_repA, List.length_replicate, chunkLoop]
  simp only [List.length_replicate, h1, h2, if_true]
  rw [show (0 : Nat) + 1500 - 150 = 1350 from by norm_num, hstep]
  simp only [Option.getD_some, List.drop_zero, List.take_replicate]
  rw [show min 1500 2000 = 1500 from by norm_num]

/-- Ingestion item of the C2 scenario: doc_id "case-1", text "A" repeated
2000 times, metadata dict category = civil. -/
def caseOneItem : IngestItem :=
  ⟨"case-1".toList, List.replicate 2000 'A',
   .mdict [("category".toList, .vstr ("civil".toList))]⟩

/-- C2: ingesting the single document (doc_id "case-1", text "A" repeated
2000 times, meta category = civil) at max_chars = 1500, overlap = 150
succeeds with 2 chunks for 1 document, and the single upsert call carries
exactly the ids "case-1__0" and "case-1__1" with chunk 0 the text's
characters [0,1500) and chunk 1 the characters [1350,2000). -/
theorem ingest_case1_scenario :
    (ingest [caseOneItem]).1 = .ok (2, 1) ∧
    ((ingest [caseOneItem]).2.map (fun call => (call.ids, call.documents)))
      = [(["case-1__0".toList, "case-1__1".toList],
          [(List.replicate 2000 'A').take 1500,
           ((List.replicate 2000 'A').drop 1350).take 650])] := by
  have hchunks : chunksOf caseOneItem.text
      = [List.replicate 1500 'A', List.replicate 650 'A'] := by
    show chunksOf (List.replicate 2000 'A') = _
    exact chunksOf_repA
  have hrows : buildRows [caseOneItem]
      = ([make_id ("case-1".toList) (natStr 0), make_id ("case-1".toList) (natStr 1)],
         [List.replicate 1500 'A', List.replicate 650 'A'],
         metasFor caseOneItem 0 [List.replicate 1500 'A', List.replicate 650 'A']) := by
    simp only [buildRows, rowsFor, hchunks, List.append_nil]
    simp only [idsFor]
    rfl
  have hd1 : List.replicate 1500 'A' = (List.replicate 2000 'A').take 1500 := by
    rw [List.take_replicate]
    norm_num
  have hd2 : List.replicate 650 'A' = ((List.replicate 2000 'A').drop 1350).take 650 := by
    rw [List.drop_replicate, List.take_replicate]
    norm_num
  constructor
  · simp only [ingest, hrows]
    rw [if_neg (by simp)]
    rfl
  · simp only [ingest, hrows]
    rw [if_neg (by simp)]
    simp only [List.map_cons, List.map_nil, List.cons.injEq, Prod.mk.injEq, and_true]
    exact ⟨by decide, by rw [← hd1, ← hd2]; exact ⟨rfl, rfl⟩⟩

/-- C5: the query endpoint clamps the caller-requested result count into
[1, 20]: n_results = max(1, min(top_k, 20)) always lies between 1 and 20, a
request with top_k = 100 asks the index for exactly 20 results, and one with
top_k = 0 asks for exactly 1. -/
theorem query_topk_clamped :
    (∀ q : QueryRequest, 1 ≤ (queryCall q).n_results ∧ (queryCall q).n_results ≤ 20) ∧
    (∀ t f, (queryCall ⟨t, 100, f⟩).n_results = 20) ∧
    (∀ t f, (queryCall ⟨t, 0, f⟩).n_results = 1) := by
  refine ⟨fun q => ⟨le_max_left 1 _, ?_⟩, fun t f => rfl, fun t f => rfl⟩
  exact max_le (by norm_num) (min_le_right _ _)

/-- C6: the metadata sanitizer keeps exactly the bindings whose values are
strings, integers, floats or booleans — meta_to_dict on a dict is literally
the filter by primitive-scalar runtime type, so None-valued keys and nested
structures (lists, dicts) are dropped silently — and on the dict
(tags = [a, b], active = True, notes = None, count = 3) it returns exactly
(active = True, count = 3). -/
theorem meta_to_dict_scalar_filter :
    (∀ d : PyDict, meta_to_dict (.mdict d) = d.filter (fun kv => isPrimScalar kv.2)) ∧
    meta_to_dict (.mdict
        [("tags".toList, .vlist [.vstr ("a".toList), .vstr ("b".toList)]),
         ("active".toList, .vbool true),
         ("notes".toList, .vnone),
         ("count".toList, .vint 3)])
      = [("active".toList, .vbool true), ("count".toList, .vint 3)] := by
  constructor
  · intro d
    show metaFilter d = d.filter (fun kv => isPrimScalar kv.2)
    induction d with
    | nil => rfl
    | cons kv rest ih =>
      cases kv with
      | mk k v =>
        cases v <;> simp [metaFilter, isPrimScalar, isNone, List.filter_cons, ih]
  · rfl

/-- C7: the metadata sanitizer is idempotent — sanitizing an
already-sanitized dict returns it unchanged, because every binding it keeps
is primitive-scalar and is kept again. -/
theorem meta_to_dict_idempotent (d : PyDict) :
    meta_to_dict (.mdict (meta_to_dict (.mdict d))) = meta_to_dict (.mdict d) := by
  show metaFilter (metaFilter d) = metaFilter d
  induction d with
  | nil => rfl
  | cons kv rest ih =>
    cases kv with
    | mk k v =>
      cases v <;> simp [metaFilter, isPrimScalar, isNone, ih]

theorem batchChunks_cons (it : IngestItem) (rest : List IngestItem) :
    batchChunks (it :: rest) = chunksOf it.text ++ batchChunks rest := by
  simp [batchChunks]

theorem buildRows_documents (items : List IngestItem) :
    (buildRows items).2.1 = batchChunks items := by
  induction items with
  | nil => rfl
  | cons it rest ih =>
    show (rowsFor it).2.1 ++ (buildRows rest).2.1 = batchChunks (it :: rest)
    rw [batchChunks_cons, ih]
    rfl

theorem idsFor_eq_nil (doc : List Char) (i : Nat) (cs : List (List Char)) :
    idsFor doc i cs = [] ↔ cs = [] := by
  cases cs <;> simp [idsFor]

theorem buildRows_ids_nil_iff (items : List IngestItem) :
    (buildRows items).1 = [] ↔ batchChunks items = [] := by
  induction items with
  | nil => simp [buildRows, batchChunks]
  | cons it rest ih =>
    show idsFor it.doc_id 0 (chunksOf it.text) ++ (buildRows rest).1 = [] ↔ _
    rw [batchChunks_cons]
    simp [List.append_eq_nil, idsFor_eq_nil, ih]

/-- C3: the ingest endpoint fails — with the client error HTTPException 400,
the EmptyInputError of the spec — exactly when normalization and chunking of
the whole batch yield zero chunks; on that failing path no call reaches the
vector index (state unchanged), and on every other batch exactly one upsert
call is issued, carrying all chunks of the whole batch. -/
theorem ingest_empty_batch (items : List IngestItem) :
    ((∃ e, (ingest items).1 = .error e ∧ e.status = 400) ↔ batchChunks items = []) ∧
    (batchChunks items = [] → (ingest items).2 = []) ∧
    (batchChunks items ≠ [] →
      ∃ call, (ingest items).2 = [call] ∧ call.documents = batchChunks items) := by
  have hids := buildRows_ids_nil_iff items
  have hdocs := buildRows_documents items
  by_cases hnil : (buildRows items).1 = []
  · have hbc := hids.mp hnil
    have hing : ingest items = (.error ⟨400, "No hay texto para ingerir.".toList⟩, []) := by
      simp only [ingest]
      rw [if_pos hnil]
    refine ⟨⟨fun _ => hbc, fun _ => ⟨⟨400, "No hay texto para ingerir.".toList⟩, ?_, rfl⟩⟩,
      fun _ => ?_, fun hne => absurd hbc hne⟩
    · rw [hing]
    · rw [hing]
  · have hbc : ¬ batchChunks items = [] := fun hx => hnil (hids.mpr hx)
    have hing : ingest items
        = (.ok ((buildRows items).1.length, items.length),
           [⟨(buildRows items).1, (buildRows items).2.1, (buildRows items).2.2⟩]) := by
      simp only [ingest]
      rw [if_neg hnil]
    constructor
    · constructor
      · rintro ⟨e, he, -⟩
        rw [hing] at he
        exact absurd he (by simp)
      · intro hx
        exact absurd hx hbc
    constructor
    · intro hx
      exact absurd hx hbc
    · intro _
      refine ⟨⟨(buildRows items).1, (buildRows items).2.1, (buildRows items).2.2⟩, ?_, hdocs⟩
      rw [hing]

theorem ingest_empty_batch_witness :
    ((∃ e, (ingest [⟨"doc-w3".toList, "   ".toList, .mnone⟩]).1 = .error e ∧ e.status = 400)
        ↔ batchChunks [⟨"doc-w3".toList, "   ".toList, .mnone⟩] = []) ∧
    (batchChunks [⟨"doc-w3".toList, "   ".toList, .mnone⟩] = [] →
      (ingest [⟨"doc-w3".toList, "   ".toList, .mnone⟩]).2 = []) ∧
    (batchChunks [⟨"doc-w3".toList, "   ".toList, .mnone⟩] ≠ [] →
      ∃ call, (ingest [⟨"doc-w3".toList, "   ".toList, .mnone⟩]).2 = [call] ∧
        call.documents = batchChunks [⟨"doc-w3".toList, "   ".toList, .mnone⟩]) :=
  ingest_empty_batch [⟨"doc-w3".toList, "   ".toList, .mnone⟩]

theorem zip3_getElem? {α β γ : Type} :
    ∀ (xs : List α) (ys : List β) (zs : List γ) (i : Nat) (row : α × β × γ),
      (zip3 xs ys zs)[i]? = some row →
      xs[i]? = some row.1 ∧ ys[i]? = some row.2.1 ∧ zs[i]? = some row.2.2 := by
  intro xs
  induction xs with
  | nil => intro ys zs i row h; simp [zip3] at h
  | cons x xs ih =>
    intro ys zs i row h
    cases ys with
    | nil => simp [zip3] at h
    | cons y ys =>
      cases zs with
      | nil => simp [zip3] at h
      | cons z zs =>
        cases i with
        | zero =>
          simp only [zip3, List.getElem?_cons_zero, Option.some.injEq] at h
          subst h
          simp
        | succ i =>
          simp only [zip3, List.getElem?_cons_succ] at h ⊢
          exact ih ys zs i row h

/-- C4: score extraction of the query endpoint tolerates a response without
a distances array — the fallback then silently selects the embeddings value,
whose elements are rows (lists), hence non-numeric — and every assembled
record's score is the positionally matched element of the selected score
array, coerced with float() when its runtime type is numeric and degrading
to 0.0 otherwise; a non-numeric score is never an error. -/
theorem query_score_extraction (r : IndexResponse) (cs : List QueryChunk)
    (h : queryAssemble r = some cs) :
    (r.distances = none →
      chosenScores r = some ((r.embeddings.getD [[]]).map PyVal.vlist)) ∧
    ∀ (i : Nat) (ch : QueryChunk), cs[i]? = some ch →
      ∃ ss s, chosenScores r = some ss ∧ ss[i]? = some s ∧
        ch.score = (if isNumScore s then toFloat s else 0) := by
  constructor
  · intro hd
    rw [chosenScores, hd]
    rfl
  · intro i ch hch
    cases hdo : getFirst r.documents with
    | none => rw [queryAssemble, hdo] at h; simp at h
    | some docs =>
      cases hme : getFirst r.metadatas with
      | none => rw [queryAssemble, hdo, hme] at h; simp at h
      | some metas =>
        cases hsc : chosenScores r with
        | none => rw [queryAssemble, hdo, hme, hsc] at h; simp at h
        | some scores =>
          rw [queryAssemble, hdo, hme, hsc] at h
          simp only [Option.some.injEq] at h
          subst h
          rw [List.getElem?_map] at hch
          cases hrow : (zip3 docs metas scores)[i]? with
          | none => rw [hrow] at hch; exact Option.noConfusion hch
          | some row =>
            rw [hrow] at hch
            simp only [Option.map_some', Option.some.injEq] at hch
            obtain ⟨-, -, hz⟩ := zip3_getElem? docs metas scores i row hrow
            refine ⟨scores, row.2.2, rfl, hz, ?_⟩
            rw [← hch]

/-- Concrete index response exercising query_score_extraction: two result
rows, a numeric first score and a non-numeric second one. -/
def scoreResp : IndexResponse :=
  { documents := some [[some ("x".toList), some ("y".toList)]]
    metadatas := some [[.vdict [("doc_id".toList, .vstr ("d".toList))], .vnone]]
    distances := some [[.vfloat 2, .vstr ("oops".toList)]]
    embeddings := none }

/-- Result rows the query endpoint assembles from scoreResp. -/
def scoreOut : List QueryChunk :=
  [⟨"d".toList, "x".toList, 2, [("doc_id".toList, .vstr ("d".toList))]⟩,
   ⟨[], "y".toList, 0, []⟩]

theorem query_score_extraction_witness :
    queryAssemble scoreResp = some scoreOut ∧
    ((scoreResp.distances = none →
       chosenScores scoreResp = some ((scoreResp.embeddings.getD [[]]).map PyVal.vlist)) ∧
     ∀ (i : Nat) (ch : QueryChunk), scoreOut[i]? = some ch →
       ∃ ss s, chosenScores scoreResp = some ss ∧ ss[i]? = some s ∧
         ch.score = (if isNumScore s then toFloat s else 0)) :=
  ⟨rfl, query_score_extraction scoreResp scoreOut rfl⟩

theorem dictGet_dictSet_self (d : PyDict) (k : List Char) (v : PyVal) :
    dictGet (dictSet d k v) k = some v := by
  induction d with
  | nil => simp [dictSet, dictGet]
  | cons kv rest ih =>
    cases kv with
    | mk k' v' =>
      by_cases hk : k' = k
      · subst hk
        simp [dictSet, dictGet]
      · simp [dictSet, dictGet, hk, ih]

theorem dictGet_dictSet_ne (d : PyDict) (k k2 : List Char) (v : PyVal) (hk : k2 ≠ k) :
    dictGet (dictSet d k2 v) k = dictGet d k := by
  induction d with
  | nil => simp [dictSet, dictGet, hk]
  | cons kv rest ih =>
    cases kv with
    | mk k' v' =>
      by_cases h2 : k' = k2
      · subst h2
        simp [dictSet, dictGet, hk]
      · by_cases h3 : k' = k
        · subst h3
          simp [dictSet, dictGet, h2]
        · simp [dictSet, dictGet, h2, h3, ih]

theorem metasFor_mem (item : IngestItem) :
    ∀ (i : Nat) (chunks : List (List Char)) (md : PyDict), md ∈ metasFor item i chunks →
      ∃ j : Int, md = dictSet (dictSet (meta_to_dict item.meta) ("doc_id".toList)
          (.vstr item.doc_id)) ("chunk_index".toList) (.vint j) := by
  intro i chunks
  induction chunks generalizing i with
  | nil => intro md h; simp [metasFor] at h
  | cons c rest ih =>
    intro md h
    rw [metasFor] at h
    rcases List.mem_cons.mp h with h1 | h2
    · exact ⟨i, h1⟩
    · exact ih (i + 1) md h2

theorem buildRows_metas_mem (items : List IngestItem) (md : PyDict)
    (h : md ∈ (buildRows items).2.2) :
    ∃ item, item ∈ items ∧ ∃ j : Int,
      md = dictSet (dictSet (meta_to_dict item.meta) ("doc_id".toList) (.vstr item.doc_id))
        ("chunk_index".toList) (.vint j) := by
  induction items with
  | nil => simp [buildRows] at h
  | cons it rest ih =>
    have h' : md ∈ (rowsFor it).2.2 ++ (buildRows rest).2.2 := h
    rcases List.mem_append.mp h' with h1 | h2
    · obtain ⟨j, hj⟩ := metasFor_mem it 0 (chunksOf it.text) md h1
      exact ⟨it, List.mem_cons_self it rest, j, hj⟩
    · obtain ⟨item, hmem, hj⟩ := ih h2
      exact ⟨item, List.mem_cons_of_mem it hmem, hj⟩

/-- C9: every metadata row stored by ingestion carries the pipeline-injected
doc_id of its source item (overwriting anything the caller supplied) and an
integer chunk_index ordinal; and the doc_id of an assembled query result is
read out of the chunk's stored metadata dict — whenever the i-th metadata
row binds doc_id to the string d, the i-th record reports exactly d; the
chunk-id strings play no part (the assembly never reads ids). -/
theorem chunk_metadata_traceability (items : List IngestItem) (call : UpsertCall)
    (md : PyDict) (hcall : call ∈ (ingest items).2) (hmd : md ∈ call.metadatas)
    (r : IndexResponse) (cs : List QueryChunk) (i : Nat) (ch : QueryChunk)
    (metas : List PyVal) (kvs : PyDict) (d : List Char)
    (hq : queryAssemble r = some cs) (hch : cs[i]? = some ch)
    (hme : getFirst r.metadatas = some metas) (hmi : metas[i]? = some (.vdict kvs))
    (hkd : dictGet kvs ("doc_id".toList) = some (.vstr d)) :
    ((∃ item, item ∈ items ∧ dictGet md ("doc_id".toList) = some (.vstr item.doc_id)) ∧
     (∃ j : Int, dictGet md ("chunk_index".toList) = some (.vint j))) ∧
    ch.doc_id = d := by
  constructor
  · by_cases hnil : (buildRows items).1 = []
    · rw [show (ingest items).2 = [] from by simp only [ingest]; rw [if_pos hnil]] at hcall
      exact absurd hcall (List.not_mem_nil call)
    · have hone : (ingest items).2
          = [⟨(buildRows items).1, (buildRows items).2.1, (buildRows items).2.2⟩] := by
        simp only [ingest]
        rw [if_neg hnil]
      rw [hone] at hcall
      have hcc := List.mem_singleton.mp hcall
      subst hcc
      obtain ⟨item, hitem, j, hj⟩ := buildRows_metas_mem items md hmd
      subst hj
      constructor
      · refine ⟨item, hitem, ?_⟩
        rw [dictGet_dictSet_ne _ _ _ _ (by decide), dictGet_dictSet_self]
      · exact ⟨j, by rw [dictGet_dictSet_self]⟩
  · cases hdo : getFirst r.documents with
    | none => rw [queryAssemble, hdo] at hq; simp at hq
    | some docs =>
      rw [queryAssemble, hdo, hme] at hq
      cases hsc : chosenScores r with
      | none => rw [hsc] at hq; simp at hq
      | some scores =>
        rw [hsc] at hq
        simp only [Option.some.injEq] at hq
        subst hq
        rw [List.getElem?_map] at hch
        cases hrow : (zip3 docs metas scores)[i]? with
        | none => rw [hrow] at hch; exact Option.noConfusion hch
        | some row =>
          rw [hrow] at hch
          simp only [Option.map_some', Option.some.injEq] at hch
          obtain ⟨-, hm2, -⟩ := zip3_getElem? docs metas scores i row hrow
          rw [hmi] at hm2
          obtain ⟨a, b, c⟩ := row
          have hrv : b = .vdict kvs := by
            injection hm2 with h2
            exact h2.symm
          subst hrv
          rw [← hch]
          simp only [hkd, Option.getD_some]
          rfl

/-- Ingestion item of the C9 witness. -/
def traceItem : IngestItem := ⟨"case-9".toList, "hola".toList, .mnone⟩

/-- The single upsert call ingesting traceItem issues. -/
def traceCall : UpsertCall :=
  ⟨["case-9__0".toList], ["hola".toList],
   [[("doc_id".toList, .vstr ("case-9".toList)), ("chunk_index".toList, .vint 0)]]⟩

/-- The single stored metadata row of traceCall. -/
def traceMd : PyDict :=
  [("doc_id".toList, .vstr ("case-9".toList)), ("chunk_index".toList, .vint 0)]

/-- Stored metadata dict of the C9 witness query response. -/
def traceKvs : PyDict := [("doc_id".toList, .vstr ("case-9b".toList))]

/-- Index response of the C9 witness. -/
def traceResp : IndexResponse :=
  { documents := some [[some ("t".toList)]]
    metadatas := some [[.vdict traceKvs]]
    distances := some [[.vint 1]]
    embeddings := none }

/-- Result record the query endpoint assembles from traceResp. -/
def traceOut : QueryChunk := ⟨"case-9b".toList, "t".toList, 1, traceKvs⟩

theorem chunk_metadata_traceability_witness :
    ((∃ item, item ∈ [traceItem] ∧
        dictGet traceMd ("doc_id".toList) = some (.vstr item.doc_id)) ∧
     (∃ j : Int, dictGet traceMd ("chunk_index".toList) = some (.vint j))) ∧
    traceOut.doc_id = "case-9b".toList :=
  chunk_metadata_traceability [traceItem] traceCall traceMd
    (List.mem_singleton.mpr rfl) (List.mem_singleton.mpr rfl)
    traceResp [traceOut] 0 traceOut [.vdict traceKvs] traceKvs ("case-9b".toList)
    rfl rfl rfl rfl rfl
